import Mathlib

/-!
# Verification of the pooling engine of `pyTecanFluent/Pool.py`

Shallow embedding of the destination-slot allocation and transfer-command
generation engine of `Pool.py`:

* `assignOrdinals` embeds the running `samples` dictionary of `add_dest`
  (lines 361-368): a name seen for the first time is minted the ordinal
  `len(samples) + 1`; a repeated name is looked up.
* `add_dest` embeds `add_dest` (lines 326-383).  Pandas dataframes are
  lists of records.  The Python float expression
  `round(nrows / positions + 0.5, 0)` is modelled over `ℚ` with
  round-half-to-even (`roundHalfEven`), which is Python's rounding mode;
  at every tie (`nrows` a multiple of `positions`) the float value is
  exact, so the rational model agrees with the float one there.
  Three abnormal exits of the Python code are modelled as errors:
  `ValueError` when the labware lookup returns no well count,
  `ZeroDivisionError` when the well count is `0`, and the `NameError`
  raised at line 374 on the first loop iteration whenever
  `n_dest_plates > 1` (the name `orig_dest_labware` is bound nowhere in
  the module, so the multi-plate branch always raises).
* `pool_samples` embeds `pool_samples` (lines 386-430).  The embedding
  uses a stable insertion sort for `df.sort_values`; for tables produced
  by `add_dest`, rows with equal sort keys always belong to the same
  sample, so the choice of order among equal keys does not affect any
  property proved here.
* `check_rack_labels` embeds `check_rack_labels` (lines 276-282) for the
  default column configuration, where the hard-coded column names
  `labware_name` and `TECAN_dest_labware_name` are the source-labware
  name and destination-labware name columns.
* `runPool` embeds the core pipeline of `main` (lines 146-176):
  `add_dest`, then `check_rack_labels`, then the conditional 384-well
  reordering step, then `pool_samples`.  `reorder_384well` is defined
  outside this file's source; the stage is therefore a parameter
  `reorder` (the identity whenever the destination type is not a
  384-well plate).
-/

namespace Pool

/-- One include-filtered input record of the sample table (§3 SampleRow):
sample name, source labware name, source labware type, and the 1-indexed
linear source position (already converted from a well label). -/
structure SampleRow where
  sample : String
  labwareName : String
  labwareType : String
  position : Nat
deriving DecidableEq, Repr

/-- One row of the destination-joined table built by `add_dest`: the
source fields plus the `TECAN_dest_*` columns. -/
structure PoolRow where
  sample : String
  labwareName : String
  labwareType : String
  position : Nat
  destLabwareName : String
  destLabwareType : String
  destPosition : Nat
deriving DecidableEq, Repr

/-- Python's `round(q, 0)`: round to the nearest integer, ties to even. -/
def roundHalfEven (q : ℚ) : ℤ :=
  if q - (⌊q⌋ : ℚ) < 1/2 then ⌊q⌋
  else if 1/2 < q - (⌊q⌋ : ℚ) then ⌊q⌋ + 1
  else if ⌊q⌋ % 2 = 0 then ⌊q⌋ else ⌊q⌋ + 1

/-- Line 353: `n_dest_plates = round(df_dest.shape[0] / positions + 0.5, 0)`.
Note that the numerator is the number of rows of the table, replicates
included, not the number of distinct samples. -/
def nDestPlates (nrows C : Nat) : ℤ :=
  roundHalfEven ((nrows : ℚ) / (C : ℚ) + 1/2)

/-- Line 370: `positions if dest_position % positions == 0 else dest_position % positions`. -/
def dest_position (n C : Nat) : Nat :=
  if n % C = 0 then C else n % C

/-- Lookup in the `samples` dictionary (first match in insertion order). -/
def regLookup : List (String × Nat) → String → Option Nat
  | [], _ => none
  | (t, n) :: rest, s => if s = t then some n else regLookup rest s

/-- The per-row ordinal computation of lines 362-368: look the sample up
in the running dictionary; on a miss mint `len(samples) + 1` and insert. -/
def assignOrdinals : List (String × Nat) → List String → List Nat
  | _, [] => []
  | reg, s :: rest =>
    match regLookup reg s with
    | some n => n :: assignOrdinals reg rest
    | none => (reg.length + 1) :: assignOrdinals (reg ++ [(s, reg.length + 1)]) rest

/-- Abnormal exits of `add_dest`. -/
inductive AddDestError where
  /-- Line 344: `ValueError`, the labware type has no `wells` entry. -/
  | unknownLabware
  /-- Line 353 divides by the well count. -/
  | zeroDivision
  /-- Line 374 reads the unbound name `orig_dest_labware`. -/
  | nameError
deriving DecidableEq, Repr

/-- Line 376: the destination record written for one row. -/
def mkPoolRow (dest_labware dest_type : String) (C : Nat) (r : SampleRow) (n : Nat) :
    PoolRow :=
  { sample := r.sample, labwareName := r.labwareName, labwareType := r.labwareType,
    position := r.position, destLabwareName := dest_labware,
    destLabwareType := dest_type, destPosition := dest_position n C }

/-- Zip the input rows with their ordinals into destination-joined rows. -/
def buildDest (dest_labware dest_type : String) (C : Nat) :
    List SampleRow → List Nat → List PoolRow
  | [], _ => []
  | _ :: _, [] => []
  | r :: rs, n :: ns =>
    mkPoolRow dest_labware dest_type C r n :: buildDest dest_labware dest_type C rs ns

/-- Embedding of `add_dest` (lines 326-383).  `dest_start` is faithfully
taken as an argument; the Python body reads it only on the multi-plate
branch (line 373), which raises `NameError` at line 374 before any
assignment is produced, so it never influences a produced assignment. -/
def add_dest (rows : List SampleRow) (dest_labware dest_type : String)
    (dest_start : Int) (getWells : String → Option Nat) :
    Except AddDestError (List PoolRow) :=
  match getWells dest_type with
  | none => .error .unknownLabware
  | some C =>
    if C = 0 then .error .zeroDivision
    else if 1 < nDestPlates rows.length C ∧ rows.length ≠ 0 then .error .nameError
    else .ok (buildDest dest_labware dest_type C rows
        (assignOrdinals [] (rows.map (·.sample))))

/-- Whether `add_dest` prints the multi-plate warning (lines 354-357);
the warning is printed before the loop, hence also on runs that then
die with the line-374 `NameError`. -/
def addDestWarning (rows : List SampleRow) (dest_type : String)
    (getWells : String → Option Nat) : Bool :=
  match getWells dest_type with
  | none => false
  | some C => if C = 0 then false else decide (1 < nDestPlates rows.length C)

/-- A worklist command (§3 TransferCommand).  `waste` is the tip-discard
(`Fluent.Waste`) and `flush` the tip-reuse flush (`Fluent.Flush`). -/
inductive Command where
  | comment (text : String)
  | aspirate (rackLabel rackType : String) (position : Nat) (volume : ℚ) (liquidClass : String)
  | dispense (rackLabel rackType : String) (position : Nat) (volume : ℚ) (liquidClass : String)
  | waste
  | flush
deriving DecidableEq, Repr

/-- First-appearance deduplication with an accumulator of names already
seen; `firstAppearances [] l` is pandas' `Series.unique()` on `l`. -/
def firstAppearances : List String → List String → List String
  | _, [] => []
  | seen, s :: rest =>
    if s ∈ seen then firstAppearances seen rest
    else s :: firstAppearances (seen ++ [s]) rest

/-- `df[sample_col].unique()`: distinct values in order of first appearance. -/
def uniqueFirst (l : List String) : List String := firstAppearances [] l

/-- Lines 422-426: the tip command emitted after every dispense. -/
def tipAfterDispense (new_tips : Bool) : List Command :=
  if new_tips then [.waste] else [.flush]

/-- Lines 403-426: the commands emitted for one replicate row. -/
def transferBlock (volume : ℚ) (liq_cls : String) (new_tips : Bool) (r : PoolRow) :
    List Command :=
  Command.aspirate r.labwareName r.labwareType r.position volume liq_cls ::
  Command.dispense r.destLabwareName r.destLabwareType r.destPosition volume liq_cls ::
  tipAfterDispense new_tips

/-- Lines 428-430: the tip command emitted after a sample's replicates. -/
def sampleTail (new_tips : Bool) : List Command :=
  if new_tips then [] else [.waste]

/-- The sort key of line 396: compare rows by `TECAN_dest_target_position`. -/
def destPosLe (a b : PoolRow) : Prop :=
  a.destPosition ≤ b.destPosition

instance : DecidableRel destPosLe :=
  fun a b => inferInstanceAs (Decidable (a.destPosition ≤ b.destPosition))

instance : IsTotal PoolRow destPosLe :=
  ⟨fun a b => Nat.le_total a.destPosition b.destPosition⟩

instance : IsTrans PoolRow destPosLe :=
  ⟨fun _ _ _ hab hbc => Nat.le_trans hab hbc⟩

/-- Line 396: `df.sort_values('TECAN_dest_target_position')`, as a stable
sort.  For tables produced by `add_dest` the sort keys of distinct
samples are distinct, so stability is unobservable at the sample level. -/
def sortByDestPos (df : List PoolRow) : List PoolRow :=
  List.insertionSort destPosLe df

/-- Lines 401-430: all commands emitted while processing one sample. -/
def sampleCmds (sorted : List PoolRow) (volume : ℚ) (liq_cls : String)
    (new_tips : Bool) (s : String) : List Command :=
  ((sorted.filter (fun r => r.sample == s)).flatMap (transferBlock volume liq_cls new_tips))
    ++ sampleTail new_tips

/-- Embedding of `pool_samples` (lines 386-430).  The two
`dest_labware_*` parameters of the Python function are accepted and,
as in the source, never read: the destination fields come from the
`TECAN_dest_*` columns of the table. -/
def pool_samples (df : List PoolRow) (dest_labware_name dest_labware_type : String)
    (volume : ℚ) (liq_cls : String) (new_tips : Bool) : List Command :=
  Command.comment "Sample pooling" ::
    (uniqueFirst ((sortByDestPos df).map (·.sample))).flatMap
      (sampleCmds (sortByDestPos df) volume liq_cls new_tips)

/-- Python's `y.replace('.', '_')` for the single-character pattern:
a character-wise map. -/
def replaceDots (s : String) : String :=
  ⟨s.data.map (fun c => if c = '.' then '_' else c)⟩

/-- Embedding of `check_rack_labels` (lines 276-282) under the default
column configuration: the source-labware-name and the
destination-labware-name of every row have `'.'` replaced by `'_'`. -/
def check_rack_labels (df : List PoolRow) : List PoolRow :=
  df.map (fun r => { r with labwareName := replaceDots r.labwareName,
                            destLabwareName := replaceDots r.destLabwareName })

/-- The core pipeline of `main` (lines 146-176): destination assignment,
rack-label cleaning, the conditional 384-well reordering stage
(`reorder`, a parameter because `reorder_384well` is defined outside
`Pool.py`; it is the identity for non-384-well destination types), then
command generation. -/
def runPool (rows : List SampleRow) (dest_labware dest_type : String) (dest_start : Int)
    (getWells : String → Option Nat) (reorder : List PoolRow → List PoolRow)
    (volume : ℚ) (liq_cls : String) (new_tips : Bool) :
    Except AddDestError (List Command) := do
  let df ← add_dest rows dest_labware dest_type dest_start getWells
  return pool_samples (reorder (check_rack_labels df))
      dest_labware dest_type volume liq_cls new_tips

/-- Is the command an aspirate? -/
def isAspirate : Command → Bool
  | .aspirate _ _ _ _ _ => true
  | _ => false

/-- Is the command a dispense? -/
def isDispense : Command → Bool
  | .dispense _ _ _ _ _ => true
  | _ => false

/-- Is the command the tip-reuse flush? -/
def isFlush : Command → Bool
  | .flush => true
  | _ => false

/-- Is the command the tip discard? -/
def isWaste : Command → Bool
  | .waste => true
  | _ => false

/-- The labware name carried by a command, when it carries one. -/
def cmdLabel : Command → Option String
  | .aspirate n _ _ _ _ => some n
  | .dispense n _ _ _ _ => some n
  | _ => none

/-- The destination positions of the dispense commands, in emission order. -/
def dispPositions (cmds : List Command) : List Nat :=
  cmds.filterMap (fun c => match c with | .dispense _ _ p _ _ => some p | _ => none)

/-- Aspirate-dispense pairing: every aspirate in `cmds` carries the
source fields of some row of `df` together with the run's volume and
liquid class, and the very next command is the dispense addressed to
that row's destination labware and position with the same volume and
liquid class. -/
def AspPaired (df : List PoolRow) (v : ℚ) (lc : String) (cmds : List Command) : Prop :=
  ∀ k n t p v0 l0, cmds.get? k = some (.aspirate n t p v0 l0) →
    ∃ r, r ∈ df ∧ n = r.labwareName ∧ t = r.labwareType ∧ p = r.position
      ∧ v0 = v ∧ l0 = lc
      ∧ cmds.get? (k + 1)
          = some (.dispense r.destLabwareName r.destLabwareType r.destPosition v lc)

/-- Every dispense in `cmds` is immediately followed by a tip flush. -/
def DispFlushed (cmds : List Command) : Prop :=
  ∀ k n t p v0 l0, cmds.get? k = some (.dispense n t p v0 l0) →
    cmds.get? (k + 1) = some .flush

/-! ## Concrete inputs used by the counterexample and bug-evaluation theorems -/

/-- A single included sample on a 96-well destination. -/
def oneRow : List SampleRow :=
  [⟨"A", "srcPlate", "96 Well Eppendorf TwinTec PCR", 1⟩]

/-- A capacity directory knowing only the 96-well TwinTec plate. -/
def wells96 : String → Option Nat :=
  fun t => if t = "96 Well Eppendorf TwinTec PCR" then some 96 else none

/-- Five distinct included samples. -/
def fiveSamples : List SampleRow :=
  [⟨"S1", "p", "t", 1⟩, ⟨"S2", "p", "t", 2⟩, ⟨"S3", "p", "t", 3⟩,
   ⟨"S4", "p", "t", 4⟩, ⟨"S5", "p", "t", 5⟩]

/-- One sample with three replicate rows, already destination-assigned. -/
def threeReps : List PoolRow :=
  [⟨"A", "p", "t", 1, "Pooled DNA plate", "dt", 1⟩,
   ⟨"A", "p", "t", 2, "Pooled DNA plate", "dt", 1⟩,
   ⟨"A", "p", "t", 3, "Pooled DNA plate", "dt", 1⟩]

/-- Rows `A, B, A` of the spec's example scenario. -/
def exRows : List SampleRow :=
  [⟨"A", "srcA", "96 Well Eppendorf TwinTec PCR", 1⟩,
   ⟨"B", "srcB", "96 Well Eppendorf TwinTec PCR", 2⟩,
   ⟨"A", "srcA", "96 Well Eppendorf TwinTec PCR", 3⟩]

/-- The destination-joined table `add_dest` produces for `exRows`. -/
def exDf : List PoolRow :=
  [⟨"A", "srcA", "96 Well Eppendorf TwinTec PCR", 1,
    "Pooled DNA plate", "96 Well Eppendorf TwinTec PCR", 1⟩,
   ⟨"B", "srcB", "96 Well Eppendorf TwinTec PCR", 2,
    "Pooled DNA plate", "96 Well Eppendorf TwinTec PCR", 2⟩,
   ⟨"A", "srcA", "96 Well Eppendorf TwinTec PCR", 3,
    "Pooled DNA plate", "96 Well Eppendorf TwinTec PCR", 1⟩]

/-- A one-row run whose labware names contain dots. -/
def dotRows : List SampleRow :=
  [⟨"A", "src.Plate", "96 Well Eppendorf TwinTec PCR", 1⟩]

/-- The command sequence of the `dotRows` run: every dot in the rack
labels has become an underscore. -/
def dotCmds : List Command :=
  [.comment "Sample pooling",
   .aspirate "src_Plate" "96 Well Eppendorf TwinTec PCR" 1 30 "Water Free Single No-cLLD",
   .dispense "Pooled_DNA plate" "96 Well Eppendorf TwinTec PCR" 1 30 "Water Free Single No-cLLD",
   .flush, .waste]

/-! ## Sample-Register machinery -/

/-- Index of the first occurrence of `s` (the list's length when `s` is
absent). -/
def idxOf (s : String) : List String → Nat
  | [] => 0
  | t :: rest => if s = t then 0 else idxOf s rest + 1

/-- The register built from an ordered list of names, ordinals starting
at `k + 1`: the state of the `samples` dictionary after the names of
`names` have been inserted in order. -/
def mkRegFrom (k : Nat) : List String → List (String × Nat)
  | [] => []
  | s :: rest => (s, k + 1) :: mkRegFrom (k + 1) rest

theorem mkRegFrom_length (k : Nat) (names : List String) :
    (mkRegFrom k names).length = names.length := by
  induction names generalizing k with
  | nil => rfl
  | cons t rest ih => simp [mkRegFrom, ih]

theorem regLookup_mkRegFrom (k : Nat) (names : List String) (s : String) :
    regLookup (mkRegFrom k names) s
      = if s ∈ names then some (k + idxOf s names + 1) else none := by
  induction names generalizing k with
  | nil => simp [mkRegFrom, regLookup]
  | cons t rest ih =>
    by_cases hst : s = t
    · subst hst
      simp [mkRegFrom, regLookup, idxOf]
    · simp [mkRegFrom, regLookup, hst, ih, idxOf]
      by_cases hmem : s ∈ rest
      · simp [hmem]
        omega
      · simp [hmem]

theorem mkRegFrom_append (k : Nat) (names : List String) (s : String) :
    mkRegFrom k (names ++ [s]) = mkRegFrom k names ++ [(s, k + names.length + 1)] := by
  induction names generalizing k with
  | nil => simp [mkRegFrom]
  | cons t rest ih =>
    simp [mkRegFrom, ih]
    omega

theorem idxOf_append_left (s : String) (names X : List String) (h : s ∈ names) :
    idxOf s (names ++ X) = idxOf s names := by
  induction names with
  | nil => cases h
  | cons t rest ih =>
    by_cases hst : s = t
    · simp [idxOf, hst]
    · rcases List.mem_cons.mp h with h' | h'
      · exact absurd h' hst
      · simp [idxOf, hst, ih h']

theorem idxOf_append_not_mem (s : String) (names Y : List String) (h : s ∉ names) :
    idxOf s (names ++ Y) = names.length + idxOf s Y := by
  induction names with
  | nil => simp
  | cons t rest ih =>
    have hst : s ≠ t := fun he => h (he ▸ List.mem_cons_self t rest)
    have hr : s ∉ rest := fun he => h (List.mem_cons_of_mem t he)
    simp [idxOf, hst, ih hr]
    omega

theorem idxOf_lt_length (s : String) (l : List String) (h : s ∈ l) :
    idxOf s l < l.length := by
  induction l with
  | nil => cases h
  | cons t rest ih =>
    by_cases hst : s = t
    · simp [idxOf, hst]
    · rcases List.mem_cons.mp h with h' | h'
      · exact absurd h' hst
      · simpa [idxOf, hst] using ih h'

theorem idxOf_inj (s t : String) (l : List String) (hs : s ∈ l) (ht : t ∈ l)
    (h : idxOf s l = idxOf t l) : s = t := by
  induction l with
  | nil => cases hs
  | cons u rest ih =>
    by_cases hsu : s = u <;> by_cases htu : t = u
    · exact hsu.trans htu.symm
    · simp [idxOf, hsu, htu] at h
    · simp [idxOf, hsu, htu] at h
    · have hs' : s ∈ rest := (List.mem_cons.mp hs).resolve_left hsu
      have ht' : t ∈ rest := (List.mem_cons.mp ht).resolve_left htu
      simp [idxOf, hsu, htu] at h
      exact ih hs' ht' h

theorem idxOf_get_of_nodup (l : List String) (hl : l.Nodup) (i : Nat) (h : i < l.length) :
    idxOf (l.get ⟨i, h⟩) l = i := by
  induction l generalizing i with
  | nil => cases h
  | cons u rest ih =>
    cases i with
    | zero => simp [idxOf]
    | succ n =>
      have hn : n < rest.length := Nat.lt_of_succ_lt_succ h
      have hmem : rest.get ⟨n, hn⟩ ∈ rest := List.get_mem rest n hn
      have hne : rest.get ⟨n, hn⟩ ≠ u := by
        intro he
        exact (List.nodup_cons.mp hl).1 (he ▸ hmem)
      have hcons : (u :: rest).get ⟨n + 1, h⟩ = rest.get ⟨n, hn⟩ := rfl
      rw [hcons]
      show (if rest.get ⟨n, hn⟩ = u then 0 else idxOf (rest.get ⟨n, hn⟩) rest + 1) = n + 1
      rw [if_neg hne, ih (List.nodup_cons.mp hl).2 n hn]

theorem fa_subset (seen l : List String) (t : String)
    (h : t ∈ firstAppearances seen l) : t ∈ l := by
  induction l generalizing seen with
  | nil => cases h
  | cons s rest ih =>
    by_cases hs : s ∈ seen
    · simp only [firstAppearances, if_pos hs] at h
      exact List.mem_cons_of_mem s (ih _ h)
    · simp only [firstAppearances, if_neg hs] at h
      rcases List.mem_cons.mp h with h' | h'
      · exact h' ▸ List.mem_cons_self s rest
      · exact List.mem_cons_of_mem s (ih _ h')

theorem fa_not_mem_seen (seen l : List String) (t : String)
    (h : t ∈ firstAppearances seen l) : t ∉ seen := by
  induction l generalizing seen with
  | nil => cases h
  | cons s rest ih =>
    by_cases hs : s ∈ seen
    · simp only [firstAppearances, if_pos hs] at h
      exact ih _ h
    · simp only [firstAppearances, if_neg hs] at h
      rcases List.mem_cons.mp h with h' | h'
      · exact h' ▸ hs
      · intro hmem
        exact ih _ h' (List.mem_append_left _ hmem)

theorem fa_mem (seen l : List String) (s : String) (hl : s ∈ l) (hs : s ∉ seen) :
    s ∈ firstAppearances seen l := by
  induction l generalizing seen with
  | nil => cases hl
  | cons t rest ih =>
    by_cases ht : t ∈ seen
    · have hst : s ≠ t := fun he => hs (he ▸ ht)
      simp only [firstAppearances, if_pos ht]
      exact ih _ ((List.mem_cons.mp hl).resolve_left hst) hs
    · simp only [firstAppearances, if_neg ht]
      by_cases hst : s = t
      · exact hst ▸ List.mem_cons_self t _
      · refine List.mem_cons_of_mem t (ih _ ((List.mem_cons.mp hl).resolve_left hst) ?_)
        intro hmem
        rcases List.mem_append.mp hmem with h' | h'
        · exact hs h'
        · exact hst (List.mem_singleton.mp h')

theorem fa_nodup (seen l : List String) : (firstAppearances seen l).Nodup := by
  induction l generalizing seen with
  | nil => exact List.nodup_nil
  | cons s rest ih =>
    by_cases hs : s ∈ seen
    · simpa only [firstAppearances, if_pos hs] using ih seen
    · simp only [firstAppearances, if_neg hs]
      refine List.nodup_cons.mpr ⟨?_, ih _⟩
      intro hmem
      exact fa_not_mem_seen _ _ _ hmem (List.mem_append_right _ (List.mem_singleton.mpr rfl))

theorem fa_length_le (seen l : List String) :
    (firstAppearances seen l).length ≤ l.length := by
  induction l generalizing seen with
  | nil => simp [firstAppearances]
  | cons s rest ih =>
    by_cases hs : s ∈ seen
    · simp only [firstAppearances, if_pos hs]
      exact Nat.le_succ_of_le (ih seen)
    · simp only [firstAppearances, if_neg hs, List.length_cons]
      exact Nat.succ_le_succ (ih _)

/-- Master characterisation of the running `samples` dictionary: starting
from the register holding `names`, the ordinal handed to each row is one
more than the index of its name in the combined first-appearance list. -/
theorem assignOrdinals_eq (l : List String) : ∀ names : List String,
    assignOrdinals (mkRegFrom 0 names) l
      = l.map (fun s => idxOf s (names ++ firstAppearances names l) + 1) := by
  induction l with
  | nil => intro names; rfl
  | cons s rest ih =>
    intro names
    by_cases hs : s ∈ names
    · rw [show assignOrdinals (mkRegFrom 0 names) (s :: rest)
          = (idxOf s names + 1) :: assignOrdinals (mkRegFrom 0 names) rest by
        simp [assignOrdinals, regLookup_mkRegFrom, hs]]
      rw [show firstAppearances names (s :: rest) = firstAppearances names rest by
        simp [firstAppearances, hs]]
      rw [ih names]
      simp [idxOf_append_left s names _ hs]
    · rw [show assignOrdinals (mkRegFrom 0 names) (s :: rest)
          = (names.length + 1) ::
              assignOrdinals (mkRegFrom 0 names ++ [(s, names.length + 1)]) rest by
        simp [assignOrdinals, regLookup_mkRegFrom, hs, mkRegFrom_length]]
      rw [show mkRegFrom 0 names ++ [(s, names.length + 1)]
          = mkRegFrom 0 (names ++ [s]) by
        rw [mkRegFrom_append]; simp]
      rw [show firstAppearances names (s :: rest)
          = s :: firstAppearances (names ++ [s]) rest by
        simp [firstAppearances, hs]]
      rw [ih (names ++ [s])]
      rw [show (names ++ [s]) ++ firstAppearances (names ++ [s]) rest
          = names ++ s :: firstAppearances (names ++ [s]) rest by
        rw [List.append_assoc]
        rfl]
      rw [List.map_cons]
      rw [idxOf_append_not_mem s names _ hs]
      simp [idxOf]

/-- The ordinal the Sample Register mints for (every occurrence of) `s`. -/
theorem assignOrdinals_nil (l : List String) :
    assignOrdinals [] l = l.map (fun s => idxOf s (uniqueFirst l) + 1) := by
  simpa [mkRegFrom, uniqueFirst] using assignOrdinals_eq l []

/-! ## Arithmetic facts about the plate-count rounding and the wrap -/

theorem roundHalfEven_ge_floor (q : ℚ) : ⌊q⌋ ≤ roundHalfEven q := by
  unfold roundHalfEven
  split_ifs <;> omega

theorem roundHalfEven_ge_two (q : ℚ) (h : 3/2 ≤ q) : 2 ≤ roundHalfEven q := by
  rcases le_or_lt 2 ⌊q⌋ with h2 | h2
  · exact le_trans h2 (roundHalfEven_ge_floor q)
  · have hf1 : ⌊q⌋ = 1 := by
      have hge : (1 : ℤ) ≤ ⌊q⌋ := by
        refine Int.le_floor.mpr ?_
        push_cast
        linarith
      omega
    unfold roundHalfEven
    rw [hf1]
    split_ifs with ha hb hc
    · exfalso
      push_cast at ha
      linarith
    · norm_num
    · exact absurd hc (by decide)
    · norm_num

theorem roundHalfEven_eq_one (q : ℚ) (h1 : 1/2 < q) (h2 : q < 3/2) :
    roundHalfEven q = 1 := by
  have h0 : (0 : ℤ) ≤ ⌊q⌋ := Int.floor_nonneg.mpr (by linarith)
  have hle : ⌊q⌋ ≤ 1 := by
    by_contra hgt
    push_neg at hgt
    have : (2 : ℚ) ≤ (⌊q⌋ : ℚ) := by exact_mod_cast hgt
    have := Int.floor_le q
    linarith
  have hcase : ⌊q⌋ = 0 ∨ ⌊q⌋ = 1 := by omega
  rcases hcase with h | h
  · unfold roundHalfEven
    rw [h]
    split_ifs with ha hb
    · exfalso
      push_cast at ha
      linarith
    · norm_num
    · exfalso
      push_cast at ha hb
      push_neg at ha hb
      linarith
    · norm_num
  · unfold roundHalfEven
    rw [h]
    split_ifs with ha hb
    · norm_num
    · exfalso
      push_cast at hb
      linarith
    · norm_num
    · exfalso
      push_cast at ha
      push_neg at ha
      linarith

theorem nDestPlates_gt_one (R C : Nat) (hC : 0 < C) (hRC : C ≤ R) :
    1 < nDestPlates R C := by
  have hq : (3/2 : ℚ) ≤ (R : ℚ) / (C : ℚ) + 1/2 := by
    have hc0 : (0 : ℚ) < (C : ℚ) := by exact_mod_cast hC
    have h1 : (1 : ℚ) ≤ (R : ℚ) / (C : ℚ) := by
      rw [le_div_iff₀ hc0, one_mul]
      exact_mod_cast hRC
    linarith
  have h2 := roundHalfEven_ge_two _ hq
  unfold nDestPlates
  exact lt_of_lt_of_le (by norm_num) h2

/-- Within the crash-free domain of `add_dest` the row count is below the
capacity. -/
theorem rows_lt_capacity (R C : Nat) (hC : 0 < C) (hR : R ≠ 0)
    (h : ¬(1 < nDestPlates R C ∧ R ≠ 0)) : R < C := by
  by_contra hge
  push_neg at hge
  exact h ⟨nDestPlates_gt_one R C hC hge, hR⟩

theorem dest_position_pos (n C : Nat) (hn : 1 ≤ n) (hC : 1 ≤ C) :
    1 ≤ dest_position n C ∧ dest_position n C ≤ C := by
  unfold dest_position
  split_ifs with h
  · exact ⟨hC, le_refl C⟩
  · have hlt : n % C < C := Nat.mod_lt n hC
    omega

theorem dest_position_eq_self (n C : Nat) (hn : 1 ≤ n) (hC : n < C) :
    dest_position n C = n := by
  unfold dest_position
  rw [Nat.mod_eq_of_lt hC, if_neg (by omega)]

/-! ## Structure of successful `add_dest` runs -/

theorem add_dest_ok_inv {rows : List SampleRow} {dl dt : String} {ds : Int}
    {gw : String → Option Nat} {out : List PoolRow}
    (h : add_dest rows dl dt ds gw = .ok out) :
    ∃ C, gw dt = some C ∧ 0 < C
      ∧ ¬(1 < nDestPlates rows.length C ∧ rows.length ≠ 0)
      ∧ out = buildDest dl dt C rows (assignOrdinals [] (rows.map (·.sample))) := by
  cases hgw : gw dt with
  | none =>
    simp only [add_dest, hgw] at h
    exact Except.noConfusion h
  | some C =>
    simp only [add_dest, hgw] at h
    split_ifs at h with h0 h1
    simp only [Except.ok.injEq] at h
    exact ⟨C, rfl, Nat.pos_of_ne_zero h0, h1, h.symm⟩

theorem buildDest_get (dl dt : String) (C : Nat) (rs : List SampleRow)
    (ns : List Nat) (i : Nat) :
    (buildDest dl dt C rs ns).get? i
      = (rs.get? i).bind (fun r => (ns.get? i).map (fun n => mkPoolRow dl dt C r n)) := by
  induction rs generalizing ns i with
  | nil => simp [buildDest]
  | cons r rs ih =>
    cases ns with
    | nil => cases i <;> simp [buildDest]
    | cons n ns' =>
      cases i with
      | zero => simp [buildDest]
      | succ k => simpa [buildDest] using ih ns' k

theorem mem_buildDest {dl dt : String} {C : Nat} {rs : List SampleRow}
    {ns : List Nat} {a : PoolRow} (ha : a ∈ buildDest dl dt C rs ns) :
    ∃ r n, r ∈ rs ∧ n ∈ ns ∧ a = mkPoolRow dl dt C r n := by
  induction rs generalizing ns with
  | nil => cases ha
  | cons r rs ih =>
    cases ns with
    | nil => cases ha
    | cons n ns' =>
      rcases List.mem_cons.mp ha with h | h
      · exact ⟨r, n, List.mem_cons_self r rs, List.mem_cons_self n ns', h⟩
      · obtain ⟨r', n', hr', hn', he⟩ := ih h
        exact ⟨r', n', List.mem_cons_of_mem r hr', List.mem_cons_of_mem n hn', he⟩

/-- On a successful run, the assignment written for row `i` is determined
by the row's name alone: labware name and type are the run constants and
the position is the wrap of the name's Sample-Register ordinal. -/
theorem add_dest_out_get {rows : List SampleRow} {dl dt : String} {ds : Int}
    {gw : String → Option Nat} {out : List PoolRow} {C : Nat} {i : Nat} {ri : SampleRow}
    (h : add_dest rows dl dt ds gw = .ok out) (hC : gw dt = some C)
    (hri : rows.get? i = some ri) :
    out.get? i = some (mkPoolRow dl dt C ri
      (idxOf ri.sample (uniqueFirst (rows.map (·.sample))) + 1)) := by
  obtain ⟨C', hgw', hC0, hnb, hout⟩ := add_dest_ok_inv h
  have hCC : C' = C := by
    rw [hgw'] at hC
    exact Option.some.inj hC
  subst hCC
  rw [hout, buildDest_get, hri, assignOrdinals_nil, List.get?_map, List.get?_map, hri]
  rfl

/-- Claim C4: all rows sharing a sample name resolve to one identical
destination assignment (same destination labware name, same labware type,
same target position); there is exactly one assignment per distinct name
because the assignment is a function of the name alone.  Confirmed. -/
theorem C4_replicate_colocation {rows : List SampleRow} {dl dt : String} {ds : Int}
    {gw : String → Option Nat} {out : List PoolRow} {i j : Nat}
    {ri rj : SampleRow} {ai aj : PoolRow}
    (h : add_dest rows dl dt ds gw = .ok out)
    (hri : rows.get? i = some ri) (hrj : rows.get? j = some rj)
    (hs : ri.sample = rj.sample)
    (hai : out.get? i = some ai) (haj : out.get? j = some aj) :
    ai.destLabwareName = aj.destLabwareName
      ∧ ai.destLabwareType = aj.destLabwareType
      ∧ ai.destPosition = aj.destPosition := by
  obtain ⟨C, hgw, hC0, hnb, hout⟩ := add_dest_ok_inv h
  have hgi := add_dest_out_get h hgw hri
  have hgj := add_dest_out_get h hgw hrj
  rw [hai] at hgi
  rw [haj] at hgj
  have hai' := Option.some.inj hgi
  have haj' := Option.some.inj hgj
  subst hai'
  subst haj'
  simp [mkPoolRow, hs]

/-- Claim C5: two rows with distinct sample names never share a
destination well: on every successful run their target positions differ
(the run uses a single plate instance, so the assignments differ in
`target_position`).  Confirmed. -/
theorem C5_slot_uniqueness {rows : List SampleRow} {dl dt : String} {ds : Int}
    {gw : String → Option Nat} {out : List PoolRow} {i j : Nat}
    {ri rj : SampleRow} {ai aj : PoolRow}
    (h : add_dest rows dl dt ds gw = .ok out)
    (hri : rows.get? i = some ri) (hrj : rows.get? j = some rj)
    (hs : ri.sample ≠ rj.sample)
    (hai : out.get? i = some ai) (haj : out.get? j = some aj) :
    ai.destPosition ≠ aj.destPosition := by
  obtain ⟨C, hgw, hC0, hnb, hout⟩ := add_dest_ok_inv h
  have hgi := add_dest_out_get h hgw hri
  have hgj := add_dest_out_get h hgw hrj
  rw [hai] at hgi
  rw [haj] at hgj
  have hai' := Option.some.inj hgi
  have haj' := Option.some.inj hgj
  subst hai'
  subst haj'
  have hRne : rows.length ≠ 0 := by
    have := (List.get?_eq_some.mp hri).1
    omega
  have hRC : rows.length < C := rows_lt_capacity _ _ hC0 hRne hnb
  have hmi : ri.sample ∈ uniqueFirst (rows.map (·.sample)) :=
    fa_mem _ _ _ (List.mem_map_of_mem _ (List.get?_mem hri)) (List.not_mem_nil _)
  have hmj : rj.sample ∈ uniqueFirst (rows.map (·.sample)) :=
    fa_mem _ _ _ (List.mem_map_of_mem _ (List.get?_mem hrj)) (List.not_mem_nil _)
  have hUlen : (uniqueFirst (rows.map (·.sample))).length ≤ rows.length := by
    have := fa_length_le [] (rows.map (·.sample))
    simpa [uniqueFirst] using this
  have hni : idxOf ri.sample (uniqueFirst (rows.map (·.sample))) + 1 < C := by
    have := idxOf_lt_length _ _ hmi
    omega
  have hnj : idxOf rj.sample (uniqueFirst (rows.map (·.sample))) + 1 < C := by
    have := idxOf_lt_length _ _ hmj
    omega
  simp only [mkPoolRow]
  rw [dest_position_eq_self _ _ (by omega) hni, dest_position_eq_self _ _ (by omega) hnj]
  intro he
  exact hs (idxOf_inj _ _ _ hmi hmj (by omega))

/-- Claim C9: every produced target position lies in `[1, C]` where `C`
is the destination capacity; the allocator never produces position 0.
Confirmed. -/
theorem C9_position_range {rows : List SampleRow} {dl dt : String} {ds : Int}
    {gw : String → Option Nat} {out : List PoolRow} {C : Nat} {a : PoolRow}
    (h : add_dest rows dl dt ds gw = .ok out) (hC : gw dt = some C) (ha : a ∈ out) :
    1 ≤ a.destPosition ∧ a.destPosition ≤ C := by
  obtain ⟨C', hgw', hC0, hnb, hout⟩ := add_dest_ok_inv h
  have hCC : C' = C := by
    rw [hgw'] at hC
    exact Option.some.inj hC
  subst hCC
  rw [hout] at ha
  obtain ⟨r, n, hr, hn, he⟩ := mem_buildDest ha
  have hn1 : 1 ≤ n := by
    rw [assignOrdinals_nil] at hn
    obtain ⟨s, _, hsn⟩ := List.mem_map.mp hn
    omega
  subst he
  exact dest_position_pos n _ hn1 hC0

/-- Claim C8: the Sample Register mints ordinals in first-appearance
order — every occurrence of a name gets one more than the index of the
name in the first-appearance list `uniqueFirst`; that list is
duplicate-free, so ordinals of the distinct names are exactly the dense
range `1..K`, witnessed by membership and surjectivity below.
Confirmed. -/
theorem C8_sample_register (l : List String) (s : String) (m : Nat) :
    (assignOrdinals [] l = l.map (fun t => idxOf t (uniqueFirst l) + 1))
      ∧ (uniqueFirst l).Nodup
      ∧ (s ∈ l → 1 ≤ idxOf s (uniqueFirst l) + 1
          ∧ idxOf s (uniqueFirst l) + 1 ≤ (uniqueFirst l).length)
      ∧ (1 ≤ m → m ≤ (uniqueFirst l).length →
          ∃ t, t ∈ l ∧ idxOf t (uniqueFirst l) + 1 = m) := by
  refine ⟨assignOrdinals_nil l, fa_nodup [] l, ?_, ?_⟩
  · intro hs
    have hmem : s ∈ uniqueFirst l :=
      fa_mem _ _ _ hs (List.not_mem_nil _)
    have := idxOf_lt_length _ _ hmem
    omega
  · intro hm1 hmK
    have hlt : m - 1 < (uniqueFirst l).length := by omega
    have hnodup : (uniqueFirst l).Nodup := fa_nodup [] l
    refine ⟨(uniqueFirst l).get ⟨m - 1, hlt⟩, ?_, ?_⟩
    · exact fa_subset [] l _ (List.get_mem _ _ _)
    · rw [idxOf_get_of_nodup (uniqueFirst l) hnodup (m - 1) hlt]
      omega

/-! ## Concrete run used by the witnesses (the spec's §8 example) -/

theorem exRows_add_dest :
    add_dest exRows "Pooled DNA plate" "96 Well Eppendorf TwinTec PCR" 1 wells96
      = .ok exDf := by
  have h1 : nDestPlates 3 96 = 1 := by norm_num [nDestPlates, roundHalfEven]
  have hw : wells96 "96 Well Eppendorf TwinTec PCR" = some 96 := rfl
  simp [add_dest, hw, exRows, exDf, h1, buildDest, assignOrdinals, regLookup,
    mkPoolRow, dest_position]

/-- Witness for C4 at the example scenario: rows 0 and 2 share name `A`
and receive the identical assignment. -/
theorem C4_witness :
    ∃ ai aj : PoolRow, exDf.get? 0 = some ai ∧ exDf.get? 2 = some aj
      ∧ ai.destLabwareName = aj.destLabwareName
      ∧ ai.destLabwareType = aj.destLabwareType
      ∧ ai.destPosition = aj.destPosition :=
  ⟨_, _, rfl, rfl,
    C4_replicate_colocation exRows_add_dest
      (show exRows.get? 0
        = some ⟨"A", "srcA", "96 Well Eppendorf TwinTec PCR", 1⟩ from rfl)
      (show exRows.get? 2
        = some ⟨"A", "srcA", "96 Well Eppendorf TwinTec PCR", 3⟩ from rfl)
      rfl
      (show exDf.get? 0
        = some ⟨"A", "srcA", "96 Well Eppendorf TwinTec PCR", 1,
            "Pooled DNA plate", "96 Well Eppendorf TwinTec PCR", 1⟩ from rfl)
      (show exDf.get? 2
        = some ⟨"A", "srcA", "96 Well Eppendorf TwinTec PCR", 3,
            "Pooled DNA plate", "96 Well Eppendorf TwinTec PCR", 1⟩ from rfl)⟩

/-- Witness for C5 at the example scenario: rows 0 and 1 carry distinct
names `A`, `B` and land on distinct wells. -/
theorem C5_witness :
    ∃ ai aj : PoolRow, exDf.get? 0 = some ai ∧ exDf.get? 1 = some aj
      ∧ ai.destPosition ≠ aj.destPosition :=
  ⟨_, _, rfl, rfl,
    C5_slot_uniqueness exRows_add_dest
      (show exRows.get? 0
        = some ⟨"A", "srcA", "96 Well Eppendorf TwinTec PCR", 1⟩ from rfl)
      (show exRows.get? 1
        = some ⟨"B", "srcB", "96 Well Eppendorf TwinTec PCR", 2⟩ from rfl)
      (by decide)
      (show exDf.get? 0
        = some ⟨"A", "srcA", "96 Well Eppendorf TwinTec PCR", 1,
            "Pooled DNA plate", "96 Well Eppendorf TwinTec PCR", 1⟩ from rfl)
      (show exDf.get? 1
        = some ⟨"B", "srcB", "96 Well Eppendorf TwinTec PCR", 2,
            "Pooled DNA plate", "96 Well Eppendorf TwinTec PCR", 2⟩ from rfl)⟩

/-- Witness for C9 at the example scenario. -/
theorem C9_witness :
    ∃ a : PoolRow, a ∈ exDf ∧ 1 ≤ a.destPosition ∧ a.destPosition ≤ 96 :=
  ⟨_, List.mem_cons_self _ _,
    C9_position_range exRows_add_dest rfl (List.mem_cons_self _ _)⟩

/-- Witness for C8 on the name sequence `A, B, A`: ordinal 2 is attained
by a name in the list. -/
theorem C8_witness :
    ∃ t, t ∈ ["A", "B", "A"] ∧ idxOf t (uniqueFirst ["A", "B", "A"]) + 1 = 2 :=
  (C8_sample_register ["A", "B", "A"] "A" 2).2.2.2 (by omega) (by decide)

/-- Claim C1 (code bug): the spec says the sample with Sample-Register
ordinal `n` and starting offset `s` gets
`target_position = ((n - 1 + (s - 1)) mod C) + 1`, so with `s = 2`,
`C = 96` the first sample should land on well `2`.  The code never reads
`dest_start` when computing the well (lines 361-370): the first sample
is assigned `target_position = 1`.  This theorem evaluates the embedded
code at that failing input. -/
theorem C1_dest_start_ignored :
    add_dest oneRow "Pooled DNA plate" "96 Well Eppendorf TwinTec PCR" 2 wells96
      = .ok [⟨"A", "srcPlate", "96 Well Eppendorf TwinTec PCR", 1,
              "Pooled DNA plate", "96 Well Eppendorf TwinTec PCR", 1⟩] := by
  have h1 : nDestPlates 1 96 = 1 := by norm_num [nDestPlates, roundHalfEven]
  have hw : wells96 "96 Well Eppendorf TwinTec PCR" = some 96 := rfl
  simp [add_dest, hw, oneRow, h1, buildDest, assignOrdinals, regLookup, mkPoolRow,
    dest_position]

/-- Claim C3 (code bug): with capacity 4 and 5 distinct samples the spec
says the fifth sample resolves to plate 2, well 1, with a warning and no
exception.  The code prints the warning and then raises `NameError` on
the first loop iteration (line 374 reads the unbound name
`orig_dest_labware`), producing no assignment at all. -/
theorem C3_overflow_raises :
    add_dest fiveSamples "Pooled DNA plate" "96 Well Eppendorf TwinTec PCR" 1
        (fun _ => some 4) = .error .nameError
      ∧ addDestWarning fiveSamples "96 Well Eppendorf TwinTec PCR"
        (fun _ => some 4) = true := by
  have h1 : nDestPlates 5 4 = 2 := by norm_num [nDestPlates, roundHalfEven]
  constructor
  · simp [add_dest, fiveSamples, h1]
  · simp [addDestWarning, fiveSamples, h1]

/-- Claim C2 counterexample: with `new_tips = false` and one sample of 3
replicates the claim predicts exactly 2 tip-flush commands; the code
emits a flush after every replicate's dispense, the last included, so
the sequence contains 3 flushes (and still exactly 1 discard). -/
theorem C2_counterexample :
    List.countP isFlush
        (pool_samples threeReps "Pooled DNA plate" "dt" 30 "Water Free Single No-cLLD" false) = 3
      ∧ ¬ List.countP isFlush
        (pool_samples threeReps "Pooled DNA plate" "dt" 30 "Water Free Single No-cLLD" false) = 2
      ∧ List.countP isWaste
        (pool_samples threeReps "Pooled DNA plate" "dt" 30 "Water Free Single No-cLLD" false) = 1 := by
  refine ⟨rfl, ?_, rfl⟩
  intro h
  have h3 : List.countP isFlush
      (pool_samples threeReps "Pooled DNA plate" "dt" 30 "Water Free Single No-cLLD" false)
      = 3 := rfl
  omega

/-! ## The pipeline: unknown labware and label hygiene -/

/-- Claim C7: when the destination plate type has no capacity entry, the
pipeline stops at `add_dest` with the unknown-labware error; the result
carries no command sequence at all, so no partial program is produced.
Confirmed. -/
theorem C7_unknown_labware {rows : List SampleRow} {dl dt : String} {ds : Int}
    {gw : String → Option Nat} {reorder : List PoolRow → List PoolRow}
    {v : ℚ} {lc : String} {nt : Bool}
    (h : gw dt = none) :
    runPool rows dl dt ds gw reorder v lc nt = .error .unknownLabware := by
  simp [runPool, add_dest, h, Bind.bind, Except.bind]

/-- Witness for C7 with a directory that knows no labware type. -/
theorem C7_witness :
    runPool exRows "Pooled DNA plate" "384 Well Biorad PCR" 1 wells96 id
      30 "Water Free Single No-cLLD" false = .error .unknownLabware :=
  C7_unknown_labware rfl

/-- Every labware name carried by a command of `pool_samples` is the
source-labware name or the destination-labware name of some row of the
input table. -/
theorem pool_samples_label_mem {df : List PoolRow} {dl dt : String} {v : ℚ}
    {lc : String} {nt : Bool} {c : Command} {s : String}
    (hc : c ∈ pool_samples df dl dt v lc nt) (hs : cmdLabel c = some s) :
    ∃ r, r ∈ df ∧ (s = r.labwareName ∨ s = r.destLabwareName) := by
  rcases List.mem_cons.mp hc with h | h
  · subst h
    exact Option.noConfusion hs
  · rw [List.mem_flatMap] at h
    obtain ⟨t, ht, hct⟩ := h
    unfold sampleCmds at hct
    rcases List.mem_append.mp hct with h2 | h2
    · rw [List.mem_flatMap] at h2
      obtain ⟨r, hr, hcr⟩ := h2
      have hrdf : r ∈ df := by
        have hr' : r ∈ sortByDestPos df := (List.mem_filter.mp hr).1
        simpa [sortByDestPos] using hr'
      unfold transferBlock at hcr
      rcases List.mem_cons.mp hcr with h3 | h3
      · subst h3
        refine ⟨r, hrdf, Or.inl ?_⟩
        exact (Option.some.inj hs).symm
      rcases List.mem_cons.mp h3 with h4 | h4
      · subst h4
        refine ⟨r, hrdf, Or.inr ?_⟩
        exact (Option.some.inj hs).symm
      · unfold tipAfterDispense at h4
        split_ifs at h4
        · rw [List.mem_singleton] at h4
          subst h4
          exact Option.noConfusion hs
        · rw [List.mem_singleton] at h4
          subst h4
          exact Option.noConfusion hs
    · unfold sampleTail at h2
      split_ifs at h2
      · cases h2
      · rw [List.mem_singleton] at h2
        subst h2
        exact Option.noConfusion hs

theorem replaceDots_no_dot (s : String) : '.' ∉ (replaceDots s).data := by
  intro h
  simp only [replaceDots] at h
  rw [List.mem_map] at h
  obtain ⟨c, _, hc⟩ := h
  by_cases h' : c = '.'
  · rw [if_pos h'] at hc
    exact absurd hc (by decide)
  · rw [if_neg h'] at hc
    exact h' hc

theorem replaceDots_data_get (s : String) (k : Nat) (c : Char)
    (h : s.data.get? k = some c) :
    (replaceDots s).data.get? k = some (if c = '.' then '_' else c) := by
  simp only [replaceDots]
  rw [List.get?_map, h]
  rfl

/-- Claim C10: commands produced by a successful pipeline run carry no
`'.'` in their labware names — `check_rack_labels` rewrites every `'.'`
of the source-labware and destination-labware names to `'_'` before
command generation, leaving every other character in place.  The
`reorder` stage is only assumed to draw each row's two name fields from
its input rows, which holds for the identity used on non-384-well runs.
Confirmed. -/
theorem C10_labels_dot_free {rows : List SampleRow} {dl dt : String} {ds : Int}
    {gw : String → Option Nat} {reorder : List PoolRow → List PoolRow}
    {v : ℚ} {lc : String} {nt : Bool} {cmds : List Command}
    (hre : ∀ d : List PoolRow, ∀ r ∈ reorder d, ∃ q ∈ d,
      r.labwareName = q.labwareName ∧ r.destLabwareName = q.destLabwareName)
    (h : runPool rows dl dt ds gw reorder v lc nt = .ok cmds) :
    (∀ c ∈ cmds, ∀ s, cmdLabel c = some s → '.' ∉ s.data)
      ∧ (∀ t : String, ∀ k c, t.data.get? k = some c →
          (replaceDots t).data.get? k = some (if c = '.' then '_' else c)) := by
  refine ⟨?_, fun t k c hc => replaceDots_data_get t k c hc⟩
  intro c hc s hs
  cases had : add_dest rows dl dt ds gw with
  | error e =>
    rw [runPool, had] at h
    have h2 : Except.error (α := List Command) e = Except.ok cmds := h
    exact Except.noConfusion h2
  | ok df0 =>
    rw [runPool, had] at h
    have h2 : Except.ok (ε := AddDestError)
        (pool_samples (reorder (check_rack_labels df0)) dl dt v lc nt)
        = Except.ok cmds := h
    rw [← Except.ok.inj h2] at hc
    obtain ⟨r, hr, hlab⟩ := pool_samples_label_mem hc hs
    obtain ⟨q, hq, hl1, hl2⟩ := hre _ r hr
    obtain ⟨q0, hq0, hqe⟩ := List.mem_map.mp hq
    rcases hlab with he | he
    · rw [he, hl1, ← hqe]
      exact replaceDots_no_dot _
    · rw [he, hl2, ← hqe]
      exact replaceDots_no_dot _

theorem dotRows_runPool :
    runPool dotRows "Pooled.DNA plate" "96 Well Eppendorf TwinTec PCR" 1 wells96 id
      30 "Water Free Single No-cLLD" false = .ok dotCmds := by
  have h1 : add_dest dotRows "Pooled.DNA plate" "96 Well Eppendorf TwinTec PCR" 1 wells96
      = .ok [⟨"A", "src.Plate", "96 Well Eppendorf TwinTec PCR", 1,
              "Pooled.DNA plate", "96 Well Eppendorf TwinTec PCR", 1⟩] := by
    have hn : nDestPlates 1 96 = 1 := by norm_num [nDestPlates, roundHalfEven]
    have hw : wells96 "96 Well Eppendorf TwinTec PCR" = some 96 := rfl
    simp [add_dest, hw, dotRows, hn, buildDest, assignOrdinals, regLookup, mkPoolRow,
      dest_position]
  rw [runPool, h1]
  rfl

/-- Witness for C10: in the `dotRows` run the aspirate's rack label is
the cleaned `src_Plate`, and it indeed contains no dot. -/
theorem C10_witness : '.' ∉ "src_Plate".data :=
  (C10_labels_dot_free (fun d r hr => ⟨r, hr, rfl, rfl⟩) dotRows_runPool).1
    (.aspirate "src_Plate" "96 Well Eppendorf TwinTec PCR" 1 30
      "Water Free Single No-cLLD")
    (by simp [dotCmds]) "src_Plate" rfl

/-! ## Aspirate-dispense pairing of `pool_samples` -/

theorem aspPaired_nil (df : List PoolRow) (v : ℚ) (lc : String) :
    AspPaired df v lc [] := by
  intro k n t p v0 l0 hk
  simp at hk

theorem aspPaired_cons_nonAsp {df : List PoolRow} {v : ℚ} {lc : String}
    {l : List Command} (c : Command) (hc : isAspirate c = false)
    (hl : AspPaired df v lc l) : AspPaired df v lc (c :: l) := by
  intro k n t p v0 l0 hk
  cases k with
  | zero =>
    have he : c = Command.aspirate n t p v0 l0 := Option.some.inj hk
    rw [he] at hc
    exact Bool.noConfusion hc
  | succ k =>
    have hk' : l.get? k = some (.aspirate n t p v0 l0) := hk
    obtain ⟨r, hr, h1, h2, h3, h4, h5, h6⟩ := hl k n t p v0 l0 hk'
    exact ⟨r, hr, h1, h2, h3, h4, h5, h6⟩

theorem aspPaired_cons_block {df : List PoolRow} {v : ℚ} {lc : String}
    {l : List Command} {r : PoolRow} (hr : r ∈ df) (hl : AspPaired df v lc l) :
    AspPaired df v lc
      (Command.aspirate r.labwareName r.labwareType r.position v lc ::
       Command.dispense r.destLabwareName r.destLabwareType r.destPosition v lc :: l) := by
  intro k n t p v0 l0 hk
  cases k with
  | zero =>
    have he : Command.aspirate r.labwareName r.labwareType r.position v lc
        = Command.aspirate n t p v0 l0 := Option.some.inj hk
    injection he with e1 e2 e3 e4 e5
    exact ⟨r, hr, e1.symm, e2.symm, e3.symm, e4.symm, e5.symm, rfl⟩
  | succ k =>
    cases k with
    | zero =>
      have he := Option.some.inj hk
      exact Command.noConfusion he
    | succ k' =>
      have hk' : l.get? k' = some (.aspirate n t p v0 l0) := hk
      obtain ⟨r', hr', h1, h2, h3, h4, h5, h6⟩ := hl k' n t p v0 l0 hk'
      exact ⟨r', hr', h1, h2, h3, h4, h5, h6⟩

theorem aspPaired_blocks (df : List PoolRow) (v : ℚ) (lc : String) (nt : Bool)
    (rows : List PoolRow) (hsub : ∀ r ∈ rows, r ∈ df)
    (suffix : List Command) (hs : AspPaired df v lc suffix) :
    AspPaired df v lc (rows.flatMap (transferBlock v lc nt) ++ suffix) := by
  induction rows with
  | nil => simpa using hs
  | cons r rs ih =>
    rw [List.flatMap_cons, List.append_assoc]
    have htail : AspPaired df v lc (rs.flatMap (transferBlock v lc nt) ++ suffix) :=
      ih (fun x hx => hsub x (List.mem_cons_of_mem r hx))
    have htip : AspPaired df v lc
        (tipAfterDispense nt ++ (rs.flatMap (transferBlock v lc nt) ++ suffix)) := by
      unfold tipAfterDispense
      split_ifs
      · exact aspPaired_cons_nonAsp _ rfl htail
      · exact aspPaired_cons_nonAsp _ rfl htail
    unfold transferBlock
    rw [List.cons_append, List.cons_append]
    exact aspPaired_cons_block (hsub r (List.mem_cons_self r rs)) htip

theorem aspPaired_samples (df sorted : List PoolRow) (v : ℚ) (lc : String) (nt : Bool)
    (hsub : ∀ r ∈ sorted, r ∈ df)
    (ss : List String) (suffix : List Command) (hs : AspPaired df v lc suffix) :
    AspPaired df v lc (ss.flatMap (sampleCmds sorted v lc nt) ++ suffix) := by
  induction ss with
  | nil => simpa using hs
  | cons s ss ih =>
    rw [List.flatMap_cons, List.append_assoc]
    rw [show sampleCmds sorted v lc nt s
        = ((sorted.filter (fun r => r.sample == s)).flatMap (transferBlock v lc nt))
          ++ sampleTail nt from rfl]
    rw [List.append_assoc]
    refine aspPaired_blocks df v lc nt _
      (fun r hr => hsub r (List.mem_of_mem_filter hr)) _ ?_
    cases nt with
    | false => exact aspPaired_cons_nonAsp _ rfl ih
    | true => exact ih

theorem pool_samples_aspPaired (df : List PoolRow) (dl dt : String) (v : ℚ)
    (lc : String) (nt : Bool) :
    AspPaired df v lc (pool_samples df dl dt v lc nt) := by
  have hsub : ∀ r ∈ sortByDestPos df, r ∈ df := by
    intro r hr
    simpa [sortByDestPos] using hr
  have h := aspPaired_samples df (sortByDestPos df) v lc nt hsub
      (uniqueFirst ((sortByDestPos df).map (·.sample))) [] (aspPaired_nil df v lc)
  rw [List.append_nil] at h
  unfold pool_samples
  exact aspPaired_cons_nonAsp _ rfl h

/-! ## Shape of the dispense-position trace -/

theorem dispPositions_append (a b : List Command) :
    dispPositions (a ++ b) = dispPositions a ++ dispPositions b :=
  List.filterMap_append a b _

theorem dispPositions_flatMap {α : Type} (l : List α) (f : α → List Command) :
    dispPositions (l.flatMap f) = l.flatMap (fun x => dispPositions (f x)) := by
  induction l with
  | nil => rfl
  | cons x xs ih => rw [List.flatMap_cons, dispPositions_append, ih, List.flatMap_cons]

theorem dispPositions_transferBlock (v : ℚ) (lc : String) (nt : Bool) (r : PoolRow) :
    dispPositions (transferBlock v lc nt r) = [r.destPosition] := by
  cases nt <;> rfl

theorem flatMap_singleton_eq_map {α β : Type} (l : List α) (f : α → β) :
    l.flatMap (fun x => [f x]) = l.map f := by
  induction l with
  | nil => rfl
  | cons x xs ih => rw [List.flatMap_cons, List.map_cons, ih]; rfl

theorem dispPositions_sampleCmds (sorted : List PoolRow) (v : ℚ) (lc : String)
    (nt : Bool) (s : String) :
    dispPositions (sampleCmds sorted v lc nt s)
      = (sorted.filter (fun r => r.sample == s)).map (·.destPosition) := by
  unfold sampleCmds
  rw [dispPositions_append, dispPositions_flatMap]
  have h1 : dispPositions (sampleTail nt) = [] := by cases nt <;> rfl
  rw [h1, List.append_nil]
  rw [show (fun r => dispPositions (transferBlock v lc nt r))
      = (fun r : PoolRow => [r.destPosition]) from
    funext (fun r => dispPositions_transferBlock v lc nt r)]
  exact flatMap_singleton_eq_map _ _

theorem dispPositions_pool (df : List PoolRow) (dl dt : String) (v : ℚ)
    (lc : String) (nt : Bool) :
    dispPositions (pool_samples df dl dt v lc nt)
      = (uniqueFirst ((sortByDestPos df).map (·.sample))).flatMap
          (fun s => ((sortByDestPos df).filter (fun r => r.sample == s)).map
            (·.destPosition)) := by
  unfold pool_samples
  rw [show dispPositions (Command.comment "Sample pooling"
        :: (uniqueFirst ((sortByDestPos df).map (·.sample))).flatMap
          (sampleCmds (sortByDestPos df) v lc nt))
      = dispPositions ((uniqueFirst ((sortByDestPos df).map (·.sample))).flatMap
          (sampleCmds (sortByDestPos df) v lc nt)) from rfl]
  rw [dispPositions_flatMap]
  exact congrArg _ (funext (fun s => dispPositions_sampleCmds (sortByDestPos df) v lc nt s))

/-! ## First-appearance order versus the sorted table -/

theorem fa_congr (l : List String) : ∀ seen seen' : List String,
    (∀ x, x ∈ seen ↔ x ∈ seen') →
    firstAppearances seen l = firstAppearances seen' l := by
  induction l with
  | nil => intro _ _ _; rfl
  | cons s rest ih =>
    intro seen seen' h
    by_cases hs : s ∈ seen
    · simp only [firstAppearances, if_pos hs, if_pos ((h s).mp hs)]
      exact ih _ _ h
    · have hs' : s ∉ seen' := fun hx => hs ((h s).mpr hx)
      simp only [firstAppearances, if_neg hs, if_neg hs']
      rw [ih (seen ++ [s]) (seen' ++ [s]) ?_]
      intro x
      simp only [List.mem_append, h x]

theorem fa_seen_filter (l : List String) : ∀ (seen : List String) (x : String),
    firstAppearances (seen ++ [x]) l
      = firstAppearances seen (l.filter (fun t => !(t == x))) := by
  induction l with
  | nil => intro _ _; rfl
  | cons t rest ih =>
    intro seen x
    by_cases htx : t = x
    · subst htx
      have hmem : t ∈ seen ++ [t] :=
        List.mem_append_right _ (List.mem_singleton.mpr rfl)
      rw [show (t :: rest).filter (fun u => !(u == t))
          = rest.filter (fun u => !(u == t)) by simp]
      simp only [firstAppearances, if_pos hmem]
      exact ih seen t
    · rw [show (t :: rest).filter (fun u => !(u == x))
          = t :: rest.filter (fun u => !(u == x)) by simp [htx]]
      by_cases hts : t ∈ seen
      · have hmem : t ∈ seen ++ [x] := List.mem_append_left _ hts
        simp only [firstAppearances, if_pos hmem, if_pos hts]
        exact ih seen x
      · have hmem : t ∉ seen ++ [x] := by
          intro hx
          rcases List.mem_append.mp hx with h' | h'
          · exact hts h'
          · exact htx (List.mem_singleton.mp h')
        simp only [firstAppearances, if_neg hmem, if_neg hts]
        rw [fa_congr rest ((seen ++ [x]) ++ [t]) ((seen ++ [t]) ++ [x]) ?_]
        · rw [ih (seen ++ [t]) x]
        · intro y
          simp only [List.mem_append, List.mem_singleton]
          tauto

theorem uniqueFirst_cons (s : String) (names : List String) :
    uniqueFirst (s :: names)
      = s :: uniqueFirst (names.filter (fun t => !(t == s))) := by
  unfold uniqueFirst
  rw [show firstAppearances [] (s :: names)
      = s :: firstAppearances ([] ++ [s]) names by
    simp [firstAppearances]]
  rw [fa_seen_filter names [] s]

theorem cross_pairwise : ∀ l : List PoolRow,
    List.Pairwise destPosLe l →
    (∀ a ∈ l, ∀ b ∈ l, a.sample = b.sample → a.destPosition = b.destPosition) →
    List.Pairwise (fun s t => ∀ a ∈ l, ∀ b ∈ l, a.sample = s → b.sample = t →
      a.destPosition ≤ b.destPosition) (uniqueFirst (l.map (·.sample)))
  | [] => fun _ _ => by simp [uniqueFirst, firstAppearances]
  | r :: rest => fun hsorted hco => by
    have hmapfilter : (rest.map (·.sample)).filter (fun t => !(t == r.sample))
        = (rest.filter (fun x => !(x.sample == r.sample))).map (·.sample) := by
      rw [List.filter_map]
      rfl
    rw [show (r :: rest).map (·.sample) = r.sample :: rest.map (·.sample) from rfl,
      uniqueFirst_cons, hmapfilter]
    refine List.pairwise_cons.mpr ⟨?_, ?_⟩
    · intro t ht a ha b hb hsa hsb
      have htne : t ≠ r.sample := by
        have hmem : t ∈ (rest.filter (fun x => !(x.sample == r.sample))).map (·.sample) :=
          fa_subset _ _ _ ht
        obtain ⟨x, hx, hxs⟩ := List.mem_map.mp hmem
        have hxr := (List.mem_filter.mp hx).2
        intro he
        rw [← hxs] at he
        simp [he] at hxr
      have hbr : b ≠ r := by
        intro he
        exact htne (by rw [← hsb, he])
      have hbrest : b ∈ rest := (List.mem_cons.mp hb).resolve_left hbr
      have har : a.destPosition = r.destPosition :=
        hco a ha r (List.mem_cons_self r rest) hsa
      have hrb : destPosLe r b := List.rel_of_pairwise_cons hsorted hbrest
      calc a.destPosition = r.destPosition := har
        _ ≤ b.destPosition := hrb
    · have hsorted' : List.Pairwise destPosLe
          (rest.filter (fun x => !(x.sample == r.sample))) :=
        List.Pairwise.sublist (List.filter_sublist rest)
          (List.pairwise_cons.mp hsorted).2
      have hco' : ∀ a ∈ rest.filter (fun x => !(x.sample == r.sample)),
          ∀ b ∈ rest.filter (fun x => !(x.sample == r.sample)),
          a.sample = b.sample → a.destPosition = b.destPosition := by
        intro a ha b hb
        exact hco a (List.mem_cons_of_mem r (List.mem_of_mem_filter ha))
          b (List.mem_cons_of_mem r (List.mem_of_mem_filter hb))
      have hrec := cross_pairwise
        (rest.filter (fun x => !(x.sample == r.sample))) hsorted' hco'
      refine List.Pairwise.imp_of_mem ?_ hrec
      intro s t hs ht hrel a ha b hb hsa hsb
      have hsne : s ≠ r.sample := by
        obtain ⟨x, hx, hxs⟩ := List.mem_map.mp (fa_subset _ _ _ hs)
        have hxr := (List.mem_filter.mp hx).2
        intro he
        rw [← hxs] at he
        simp [he] at hxr
      have htne : t ≠ r.sample := by
        obtain ⟨x, hx, hxs⟩ := List.mem_map.mp (fa_subset _ _ _ ht)
        have hxr := (List.mem_filter.mp hx).2
        intro he
        rw [← hxs] at he
        simp [he] at hxr
      have hane : a ≠ r := fun he => hsne (by rw [← hsa, he])
      have hbne : b ≠ r := fun he => htne (by rw [← hsb, he])
      have hal : a ∈ rest.filter (fun x => !(x.sample == r.sample)) :=
        List.mem_filter.mpr ⟨(List.mem_cons.mp ha).resolve_left hane,
          by simp [hsa, hsne]⟩
      have hbl : b ∈ rest.filter (fun x => !(x.sample == r.sample)) :=
        List.mem_filter.mpr ⟨(List.mem_cons.mp hb).resolve_left hbne,
          by simp [hsb, htne]⟩
      exact hrel a hal b hbl hsa hsb
termination_by l => l.length
decreasing_by
  simp only [List.length_cons]
  have := List.length_filter_le (fun x => !(x.sample == r.sample)) rest
  omega

theorem dispPositions_sorted (df : List PoolRow) (dl dt : String) (v : ℚ)
    (lc : String) (nt : Bool)
    (hco : ∀ a ∈ df, ∀ b ∈ df, a.sample = b.sample → a.destPosition = b.destPosition) :
    List.Sorted (fun x y => x ≤ y) (dispPositions (pool_samples df dl dt v lc nt)) := by
  rw [dispPositions_pool df dl dt v lc nt, List.flatMap_def]
  have hsorted : List.Pairwise destPosLe (sortByDestPos df) :=
    List.sorted_insertionSort destPosLe df
  have hco' : ∀ a ∈ sortByDestPos df, ∀ b ∈ sortByDestPos df,
      a.sample = b.sample → a.destPosition = b.destPosition := by
    intro a ha b hb
    exact hco a (by simpa [sortByDestPos] using ha) b (by simpa [sortByDestPos] using hb)
  refine List.pairwise_flatten.mpr ⟨?_, ?_⟩
  · intro inner hinner
    obtain ⟨s, hss, he⟩ := List.mem_map.mp hinner
    rw [← he]
    refine List.pairwise_map.mpr ?_
    exact List.Pairwise.sublist (List.filter_sublist _) hsorted
  · refine List.pairwise_map.mpr ?_
    have hcross := cross_pairwise (sortByDestPos df) hsorted hco'
    refine List.Pairwise.imp ?_ hcross
    intro s t hrel x hx y hy
    obtain ⟨a, ha, hax⟩ := List.mem_map.mp hx
    obtain ⟨b, hb, hby⟩ := List.mem_map.mp hy
    have has : a.sample = s := by simpa using (List.mem_filter.mp ha).2
    have hbt : b.sample = t := by simpa using (List.mem_filter.mp hb).2
    rw [← hax, ← hby]
    exact hrel a (List.mem_of_mem_filter ha) b (List.mem_of_mem_filter hb) has hbt

/-! ## Command counting -/

theorem countP_flatMap {α : Type} (p : Command → Bool) (l : List α)
    (f : α → List Command) :
    List.countP p (l.flatMap f) = (l.map (fun x => List.countP p (f x))).sum := by
  induction l with
  | nil => rfl
  | cons x xs ih =>
    rw [List.flatMap_cons, List.countP_append, ih, List.map_cons, List.sum_cons]

theorem sum_map_one {α : Type} (l : List α) : (l.map (fun _ => 1)).sum = l.length := by
  induction l with
  | nil => rfl
  | cons x xs ih =>
    rw [List.map_cons, List.sum_cons, ih, List.length_cons]
    omega

theorem length_filter_partition {α : Type} (p : α → Bool) (l : List α) :
    (l.filter p).length + (l.filter (fun x => !(p x))).length = l.length := by
  induction l with
  | nil => rfl
  | cons x xs ih => cases h : p x <;> simp [List.filter_cons, h] <;> omega

theorem countAsp_sampleCmds (sorted : List PoolRow) (v : ℚ) (lc : String)
    (nt : Bool) (s : String) :
    List.countP isAspirate (sampleCmds sorted v lc nt s)
      = (sorted.filter (fun r => r.sample == s)).length := by
  unfold sampleCmds
  rw [List.countP_append, countP_flatMap]
  rw [List.map_congr_left
    (fun r _ => show List.countP isAspirate (transferBlock v lc nt r) = 1 by
      cases nt <;> rfl)]
  rw [sum_map_one]
  rw [show List.countP isAspirate (sampleTail nt) = 0 by cases nt <;> rfl]
  omega

theorem countFlush_sampleCmds_false (sorted : List PoolRow) (v : ℚ) (lc : String)
    (s : String) :
    List.countP isFlush (sampleCmds sorted v lc false s)
      = (sorted.filter (fun r => r.sample == s)).length := by
  unfold sampleCmds
  rw [List.countP_append, countP_flatMap]
  rw [List.map_congr_left
    (fun r _ => show List.countP isFlush (transferBlock v lc false r) = 1 from rfl)]
  rw [sum_map_one]
  rfl

theorem countWaste_sampleCmds_false (sorted : List PoolRow) (v : ℚ) (lc : String)
    (s : String) :
    List.countP isWaste (sampleCmds sorted v lc false s) = 1 := by
  unfold sampleCmds
  rw [List.countP_append, countP_flatMap]
  rw [List.map_congr_left
    (fun r _ => show List.countP isWaste (transferBlock v lc false r) = 0 from rfl)]
  rw [show ((sorted.filter (fun r => r.sample == s)).map (fun _ => 0)).sum = 0 by
    induction sorted.filter (fun r => r.sample == s) with
    | nil => rfl
    | cons x xs ih => simpa using ih]
  rfl

/-- The first-appearance groups partition the table: summing the group
sizes over the distinct sample names recovers the number of rows. -/
theorem partition_lengths : ∀ l : List PoolRow,
    ((uniqueFirst (l.map (·.sample))).map
        (fun s => (l.filter (fun r => r.sample == s)).length)).sum = l.length
  | [] => rfl
  | r :: rest => by
    have hmapfilter : (rest.map (·.sample)).filter (fun t => !(t == r.sample))
        = (rest.filter (fun x => !(x.sample == r.sample))).map (·.sample) := by
      rw [List.filter_map]
      rfl
    rw [show (r :: rest).map (·.sample) = r.sample :: rest.map (·.sample) from rfl,
      uniqueFirst_cons, hmapfilter, List.map_cons, List.sum_cons]
    have hhead : ((r :: rest).filter (fun x => x.sample == r.sample)).length
        = (rest.filter (fun x => x.sample == r.sample)).length + 1 := by
      simp [List.filter_cons]
    have htail : ∀ s ∈ uniqueFirst
        ((rest.filter (fun x => !(x.sample == r.sample))).map (·.sample)),
        ((r :: rest).filter (fun x => x.sample == s)).length
          = ((rest.filter (fun x => !(x.sample == r.sample))).filter
              (fun x => x.sample == s)).length := by
      intro s hss
      have hsne : s ≠ r.sample := by
        obtain ⟨x, hx, hxs⟩ := List.mem_map.mp (fa_subset _ _ _ hss)
        have hxr := (List.mem_filter.mp hx).2
        intro he
        rw [← hxs] at he
        simp [he] at hxr
      rw [show (r :: rest).filter (fun x => x.sample == s)
          = rest.filter (fun x => x.sample == s) by
        simp [List.filter_cons, show (r.sample == s) = false by
          simpa using fun he => hsne he.symm]]
      rw [List.filter_filter]
      refine congrArg List.length (List.filter_congr ?_)
      intro x _
      by_cases hxs : x.sample = s
      · simp [hxs, show (s == r.sample) = false by simpa using hsne]
      · simp [hxs]
    rw [List.map_congr_left htail,
      partition_lengths (rest.filter (fun x => !(x.sample == r.sample)))]
    have hpart := length_filter_partition (fun x : PoolRow => x.sample == r.sample) rest
    simp only [List.length_cons]
    omega
termination_by l => l.length
decreasing_by
  simp only [List.length_cons]
  have := List.length_filter_le (fun x => !(x.sample == r.sample)) rest
  omega

theorem countAsp_pool (df : List PoolRow) (dl dt : String) (v : ℚ)
    (lc : String) (nt : Bool) :
    List.countP isAspirate (pool_samples df dl dt v lc nt) = df.length := by
  unfold pool_samples
  rw [List.countP_cons]
  rw [show (if isAspirate (Command.comment "Sample pooling") = true then 1 else 0)
      = 0 from rfl]
  rw [countP_flatMap]
  rw [List.map_congr_left
    (fun s _ => countAsp_sampleCmds (sortByDestPos df) v lc nt s)]
  rw [partition_lengths (sortByDestPos df)]
  exact (List.perm_insertionSort destPosLe df).length_eq

theorem countFlush_pool_false (df : List PoolRow) (dl dt : String) (v : ℚ)
    (lc : String) :
    List.countP isFlush (pool_samples df dl dt v lc false) = df.length := by
  unfold pool_samples
  rw [List.countP_cons]
  rw [show (if isFlush (Command.comment "Sample pooling") = true then 1 else 0)
      = 0 from rfl]
  rw [countP_flatMap]
  rw [List.map_congr_left
    (fun s _ => countFlush_sampleCmds_false (sortByDestPos df) v lc s)]
  rw [partition_lengths (sortByDestPos df)]
  exact (List.perm_insertionSort destPosLe df).length_eq

theorem countWaste_pool_false (df : List PoolRow) (dl dt : String) (v : ℚ)
    (lc : String) :
    List.countP isWaste (pool_samples df dl dt v lc false)
      = (uniqueFirst ((sortByDestPos df).map (·.sample))).length := by
  unfold pool_samples
  rw [List.countP_cons]
  rw [show (if isWaste (Command.comment "Sample pooling") = true then 1 else 0)
      = 0 from rfl]
  rw [countP_flatMap]
  rw [List.map_congr_left
    (fun s _ => countWaste_sampleCmds_false (sortByDestPos df) v lc s)]
  rw [sum_map_one]
  omega

/-! ## Dispense-flush pairing of `pool_samples` with tip reuse -/

theorem dispFlushed_nil : DispFlushed [] := by
  intro k n t p v0 l0 hk
  simp at hk

theorem dispFlushed_cons_nonDisp {l : List Command} (c : Command)
    (hc : isDispense c = false) (hl : DispFlushed l) : DispFlushed (c :: l) := by
  intro k n t p v0 l0 hk
  cases k with
  | zero =>
    have he : c = Command.dispense n t p v0 l0 := Option.some.inj hk
    rw [he] at hc
    exact Bool.noConfusion hc
  | succ k =>
    have hk' : l.get? k = some (.dispense n t p v0 l0) := hk
    exact hl k n t p v0 l0 hk'

theorem dispFlushed_blocks (v : ℚ) (lc : String) (rows : List PoolRow)
    (suffix : List Command) (hs : DispFlushed suffix) :
    DispFlushed (rows.flatMap (transferBlock v lc false) ++ suffix) := by
  induction rows with
  | nil => simpa using hs
  | cons r rs ih =>
    rw [List.flatMap_cons, List.append_assoc]
    intro k n t p v0 l0 hk
    match k with
    | 0 =>
      have he := Option.some.inj hk
      exact Command.noConfusion he
    | 1 => rfl
    | 2 =>
      have he := Option.some.inj hk
      exact Command.noConfusion he
    | Nat.succ (Nat.succ (Nat.succ k')) =>
      have hk' : (rs.flatMap (transferBlock v lc false) ++ suffix).get? k'
          = some (.dispense n t p v0 l0) := hk
      exact ih k' n t p v0 l0 hk'

theorem dispFlushed_samples (sorted : List PoolRow) (v : ℚ) (lc : String)
    (ss : List String) (suffix : List Command) (hs : DispFlushed suffix) :
    DispFlushed (ss.flatMap (sampleCmds sorted v lc false) ++ suffix) := by
  induction ss with
  | nil => simpa using hs
  | cons s ss ih =>
    rw [List.flatMap_cons, List.append_assoc]
    rw [show sampleCmds sorted v lc false s
        = ((sorted.filter (fun r => r.sample == s)).flatMap (transferBlock v lc false))
          ++ [Command.waste] from rfl]
    rw [List.append_assoc]
    refine dispFlushed_blocks v lc _ _ ?_
    exact dispFlushed_cons_nonDisp _ rfl ih

theorem pool_dispFlushed (df : List PoolRow) (dl dt : String) (v : ℚ) (lc : String) :
    DispFlushed (pool_samples df dl dt v lc false) := by
  have h := dispFlushed_samples (sortByDestPos df) v lc
      (uniqueFirst ((sortByDestPos df).map (·.sample))) [] dispFlushed_nil
  rw [List.append_nil] at h
  unfold pool_samples
  exact dispFlushed_cons_nonDisp _ rfl h

/-- Claim C2 as amended: with `new_tips_between_replicates = false` the
generator emits a tip-flush after every replicate's dispense *including
the sample's last replicate* — one flush per replicate row — and then
exactly one tip-discard per sample after that sample's replicates, so a
sample with 3 replicates yields 3 flushes (not 2) and 1 discard. -/
theorem C2_tip_policy_amended (df : List PoolRow) (dl dt : String) (v : ℚ)
    (lc : String) :
    DispFlushed (pool_samples df dl dt v lc false)
      ∧ List.countP isFlush (pool_samples df dl dt v lc false) = df.length
      ∧ List.countP isWaste (pool_samples df dl dt v lc false)
          = (uniqueFirst ((sortByDestPos df).map (·.sample))).length :=
  ⟨pool_dispFlushed df dl dt v lc, countFlush_pool_false df dl dt v lc,
    countWaste_pool_false df dl dt v lc⟩

/-- Witness for the amended C2, at the three-replicate run: the dispense
at index 2 is immediately followed by a flush. -/
theorem C2_witness :
    (pool_samples threeReps "Pooled DNA plate" "dt" 30 "Water Free Single No-cLLD"
      false).get? 3 = some Command.flush :=
  (C2_tip_policy_amended threeReps "Pooled DNA plate" "dt" 30
    "Water Free Single No-cLLD").1 2 "Pooled DNA plate" "dt" 1 30
    "Water Free Single No-cLLD" rfl

/-- Claim C6: the generated program opens with the single comment
command; every aspirate carries a row's source labware, type and
position with the configured volume and liquid class and is immediately
followed by the dispense to that row's destination labware and position;
the dispense positions are visited in nondecreasing order (samples are
processed in ascending `target_position` order); and there is exactly
one aspirate per replicate row.  The hypothesis is the replicate
co-location invariant guaranteed by `add_dest` (claim C4).  Confirmed. -/
theorem C6_command_generation (df : List PoolRow) (dl dt : String) (v : ℚ)
    (lc : String) (nt : Bool)
    (hco : ∀ a ∈ df, ∀ b ∈ df, a.sample = b.sample → a.destPosition = b.destPosition) :
    (pool_samples df dl dt v lc nt).head? = some (.comment "Sample pooling")
      ∧ AspPaired df v lc (pool_samples df dl dt v lc nt)
      ∧ List.Sorted (fun x y => x ≤ y) (dispPositions (pool_samples df dl dt v lc nt))
      ∧ List.countP isAspirate (pool_samples df dl dt v lc nt) = df.length :=
  ⟨rfl, pool_samples_aspPaired df dl dt v lc nt,
    dispPositions_sorted df dl dt v lc nt hco, countAsp_pool df dl dt v lc nt⟩

/-- Witness for C6 at the example-scenario table `exDf` (its co-location
hypothesis holds and is discharged by `decide`). -/
theorem C6_witness :
    (pool_samples exDf "Pooled DNA plate" "96 Well Eppendorf TwinTec PCR"
        30 "Water Free Single No-cLLD" false).head?
        = some (.comment "Sample pooling")
      ∧ AspPaired exDf 30 "Water Free Single No-cLLD"
        (pool_samples exDf "Pooled DNA plate" "96 Well Eppendorf TwinTec PCR"
          30 "Water Free Single No-cLLD" false)
      ∧ List.Sorted (fun x y => x ≤ y)
        (dispPositions (pool_samples exDf "Pooled DNA plate"
          "96 Well Eppendorf TwinTec PCR" 30 "Water Free Single No-cLLD" false))
      ∧ List.countP isAspirate (pool_samples exDf "Pooled DNA plate"
          "96 Well Eppendorf TwinTec PCR" 30 "Water Free Single No-cLLD" false)
        = exDf.length :=
  C6_command_generation exDf "Pooled DNA plate" "96 Well Eppendorf TwinTec PCR"
    30 "Water Free Single No-cLLD" false (by decide)

end Pool
